import Mathlib

/-!
# Verification of the MMseqs2 k-mer index table (`src/prefiltering/IndexTable.h`)

A shallow embedding of the `IndexTable` build operations: the counting pass
(`addKmerCount`, `addSimilarKmerCount`), the prefix sum (`init`), the fill pass
(`addSequence`, `addSimilarSequence`), the pointer rewind (`revertPointer`),
the bucket lookup (`getDBSeqList`), the k-mer size selection
(`computeKmerSize`, `getUpperBoundAACountForKmerSize`) and the constructor.

Machine-dependent collaborator interfaces that the header only consumes
(`Sequence`, `Indexer::int2index`, `KmerGenerator::generateKmerList`) are
abstracted as parameters: a sequence is the list of k-mer windows its cursor
yields, each carrying its symbols and cursor position; `int2index` is an
arbitrary function from symbol lists to bucket indices; the neighborhood
generator is an arbitrary function from symbol lists to index lists.
The `offsets` array of `size_t` cells is a function `Nat → Nat`; the `entries`
array is not modelled directly — instead each fill routine returns the list of
writes it performs (bucket, slot, seqId, position), which determines the
entries array content.
-/

namespace MMseqs

/-- `UINT_MAX`, the sentinel initial value of `prevKmerIdx` / `prevKmer` in the
deduplicating walks of `IndexTable.h`. -/
def UINT_MAX : Nat := 4294967295

/-- One k-mer yielded by the `Sequence` cursor: the `kmerSize` symbols returned
by `s->nextKmer()` together with `s->getCurrentPosition()`. -/
structure KmerOcc where
  sym : List Nat
  pos : Nat
deriving DecidableEq

/-- `IndexEntryLocalTmp` (IndexTable.h:38): transient build record
`{kmer : u32, seqId : u32, position_j : u16}`.  The `u16` truncation of the
position is applied where the record is constructed. -/
structure IndexEntryLocalTmp where
  kmer : Nat
  seqId : Nat
  position_j : Nat
deriving DecidableEq

/-- `IndexEntryLocalTmp::comapreByIdAndPos` (IndexTable.h:48): strict
lexicographic comparison by `(kmer, position_j)`; equal records compare
`false`. -/
def comapreByIdAndPos (first second : IndexEntryLocalTmp) : Bool :=
  if first.kmer < second.kmer then true
  else if second.kmer < first.kmer then false
  else if first.position_j < second.position_j then true
  else if second.position_j < first.position_j then false
  else false

/-- The non-strict order induced by `comapreByIdAndPos`.  `std::sort` with a
strict weak order `c` produces a list in which `c(l[j], l[i])` fails for
`i ≤ j`, i.e. sorted with respect to `fun a b => !c b a`. -/
def tmpLe (a b : IndexEntryLocalTmp) : Bool :=
  ! comapreByIdAndPos b a

/-- One write into the `entries` array performed by the fill pass
(IndexTable.h:362-366): the posting `{seqId, position_j}` is placed at index
`slot = offsets[kmer]`, the pre-increment cursor of bucket `kmer`. -/
structure Posting where
  kmer : Nat
  slot : Nat
  seqId : Nat
  position_j : Nat
deriving DecidableEq

/-- The score loop of `addKmerCount` / `addSequence`
(IndexTable.h:139-142, 340-343): `score += diagonalScore[kmer[pos]]` summed
over the k-mer symbols. -/
def kmerScore (diagonalScore : Nat → Int) : List Nat → Int
  | [] => 0
  | c :: cs => diagonalScore c + kmerScore diagonalScore cs

/-- The collection loop of `IndexTable::addSequence` (IndexTable.h:331-353):
for each k-mer of the sequence compute `kmerIdx = int2index(kmer)`; keep it if
it lies in the window `[aaFrom, aaFrom + aaSize)`, its bucket is not
zero-length (`offsets[kmerIdx+1] - offsets[kmerIdx] == 0` on `size_t` cells is
an equality test), and — when `threshold > 0` — its diagonal score is not
below `threshold`; kept k-mers are appended to the scratch buffer as
`IndexEntryLocalTmp` records (the position truncated to `u16`). -/
def collectSeq (offsets : Nat → Nat) (idx : List Nat → Nat) (aaFrom aaSize : Nat)
    (threshold : Int) (diagonalScore : Nat → Int) (seqId : Nat) :
    List KmerOcc → List IndexEntryLocalTmp
  | [] => []
  | o :: os =>
    let rest := collectSeq offsets idx aaFrom aaSize threshold diagonalScore seqId os
    let kmerIdx := idx o.sym
    if aaFrom ≤ kmerIdx ∧ kmerIdx < aaFrom + aaSize then
      if offsets (kmerIdx + 1) = offsets kmerIdx then rest
      else if 0 < threshold ∧ kmerScore diagonalScore o.sym < threshold then rest
      else ⟨kmerIdx, seqId, o.pos % 65536⟩ :: rest
    else rest

/-- Result of a fill routine: the updated cursor array and the chronological
list of writes into the `entries` array. -/
structure FillResult where
  offsets : Nat → Nat
  trace : List Posting

/-- The deduplicating write loop shared by `addSequence` (IndexTable.h:358-369)
and `addSimilarSequence` (IndexTable.h:309-319): walk the sorted buffer with
`prevKmer` tracking; whenever the current `kmer` differs from the previous
one, write the posting at `entries + offsets[kmerIdx]` and advance the cursor
`offsets[kmerIdx] += 1`; otherwise drop the record. -/
def fillLoop (offsets : Nat → Nat) (prevKmer : Nat) :
    List IndexEntryLocalTmp → FillResult
  | [] => ⟨offsets, []⟩
  | t :: ts =>
    if t.kmer ≠ prevKmer then
      let r := fillLoop (Function.update offsets t.kmer (offsets t.kmer + 1)) t.kmer ts
      ⟨r.offsets, ⟨t.kmer, offsets t.kmer, t.seqId, t.position_j⟩ :: r.trace⟩
    else
      fillLoop offsets t.kmer ts

/-- The sort step of the fill routines (IndexTable.h:355-357): sort the scratch
buffer with `comapreByIdAndPos` when it holds more than one record.
`std::sort` is modelled by `mergeSort` over the induced non-strict order. -/
def sortBuffer (buffer : List IndexEntryLocalTmp) : List IndexEntryLocalTmp :=
  if 1 < buffer.length then buffer.mergeSort tmpLe else buffer

/-- `IndexTable::addSequence` (IndexTable.h:323-370): collect the windowed,
unmasked, threshold-passing k-mers of the sequence, sort them by
`(kmer, position)`, then write one posting per distinct k-mer. -/
def addSequence (offsets : Nat → Nat) (idx : List Nat → Nat) (aaFrom aaSize : Nat)
    (threshold : Int) (diagonalScore : Nat → Int) (seqId : Nat)
    (kmers : List KmerOcc) : FillResult :=
  fillLoop offsets UINT_MAX
    (sortBuffer (collectSeq offsets idx aaFrom aaSize threshold diagonalScore seqId kmers))

/-- The collection loop of `IndexTable::addSimilarSequence`
(IndexTable.h:291-304): for each k-mer of the sequence, expand it through
`kmerGenerator->generateKmerList` and keep every produced index that lies in
the window and whose bucket is not zero-length.  No score threshold is
applied. -/
def collectSim (offsets : Nat → Nat) (kmerGenerator : List Nat → List Nat)
    (aaFrom aaSize : Nat) (seqId : Nat) : List KmerOcc → List IndexEntryLocalTmp
  | [] => []
  | o :: os =>
    ((kmerGenerator o.sym).filter fun kmerIdx =>
        decide (aaFrom ≤ kmerIdx ∧ kmerIdx < aaFrom + aaSize) &&
        ! decide (offsets (kmerIdx + 1) = offsets kmerIdx)).map
      (fun kmerIdx => ⟨kmerIdx, seqId, o.pos % 65536⟩)
    ++ collectSim offsets kmerGenerator aaFrom aaSize seqId os

/-- `IndexTable::addSimilarSequence` (IndexTable.h:283-320).  The `threshold`
and `diagonalScore` parameters appear in the source signature but are not read
by the body. -/
def addSimilarSequence (offsets : Nat → Nat) (kmerGenerator : List Nat → List Nat)
    (aaFrom aaSize : Nat) (threshold : Int) (diagonalScore : Nat → Int)
    (seqId : Nat) (kmers : List KmerOcc) : FillResult :=
  fillLoop offsets UINT_MAX
    (sortBuffer (collectSim offsets kmerGenerator aaFrom aaSize seqId kmers))

/-- Result of a counting routine: the updated count array and the returned
number of distinct k-mers contributed by the sequence. -/
structure CountResult where
  offsets : Nat → Nat
  countUniqKmer : Nat

/-- The collection loop of `IndexTable::addKmerCount` (IndexTable.h:136-150):
for each k-mer of the sequence, skip it when `threshold > 0` and its diagonal
score is below `threshold`; otherwise append `int2index(kmer)` to the scratch
buffer. -/
def collectCount (idx : List Nat → Nat) (threshold : Int)
    (diagonalScore : Nat → Int) : List KmerOcc → List Nat
  | [] => []
  | o :: os =>
    let rest := collectCount idx threshold diagonalScore os
    if 0 < threshold ∧ kmerScore diagonalScore o.sym < threshold then rest
    else idx o.sym :: rest

/-- The sort step of the counting routines (IndexTable.h:113-115, 151-153):
sort the index buffer ascending when it holds more than one element. -/
def sortKmerBuffer (buffer : List Nat) : List Nat :=
  if 1 < buffer.length then buffer.mergeSort (fun a b => decide (a ≤ b)) else buffer

/-- The deduplicating count loop shared by `addKmerCount`
(IndexTable.h:154-165) and `addSimilarKmerCount` (IndexTable.h:116-127): walk
the sorted buffer with `prevKmerIdx` tracking; whenever the current index
differs from the previous one, `__sync_fetch_and_add(&offsets[kmerIdx], 1)`
and increment `countUniqKmer`. -/
def countLoop (offsets : Nat → Nat) (prevKmerIdx : Nat) (countUniqKmer : Nat) :
    List Nat → CountResult
  | [] => ⟨offsets, countUniqKmer⟩
  | k :: ks =>
    if prevKmerIdx ≠ k then
      countLoop (Function.update offsets k (offsets k + 1)) k (countUniqKmer + 1) ks
    else
      countLoop offsets k countUniqKmer ks

/-- `IndexTable::addKmerCount` (IndexTable.h:132-167). -/
def addKmerCount (offsets : Nat → Nat) (idx : List Nat → Nat) (threshold : Int)
    (diagonalScore : Nat → Int) (kmers : List KmerOcc) : CountResult :=
  countLoop offsets UINT_MAX 0
    (sortKmerBuffer (collectCount idx threshold diagonalScore kmers))

/-- The collection loop of `IndexTable::addSimilarKmerCount`
(IndexTable.h:104-112): accumulate every index produced by the neighborhood
generator, with no window, mask or threshold check. -/
def collectSimCount (kmerGenerator : List Nat → List Nat) : List KmerOcc → List Nat
  | [] => []
  | o :: os => kmerGenerator o.sym ++ collectSimCount kmerGenerator os

/-- `IndexTable::addSimilarKmerCount` (IndexTable.h:97-129).  The `threshold`
and `diagonalScore` parameters appear in the source signature but are not read
by the body. -/
def addSimilarKmerCount (offsets : Nat → Nat) (kmerGenerator : List Nat → List Nat)
    (threshold : Int) (diagonalScore : Nat → Int) (kmers : List KmerOcc) : CountResult :=
  countLoop offsets UINT_MAX 0 (sortKmerBuffer (collectSimCount kmerGenerator kmers))

/-- The in-place loop of `IndexTable::init` (IndexTable.h:207-213): running
exclusive prefix sum over the cells, finishing with `offsets[tableSize] =
offset`.  The input list is the `tableSize` count cells; the output has one
more cell, the last holding the running total. -/
def prefixSumLoop : List Nat → Nat → List Nat
  | [], offset => [offset]
  | c :: cs, offset => offset :: prefixSumLoop cs (offset + c)

/-- `IndexTable::init` (IndexTable.h:205-214): convert counts to offsets. -/
def init (counts : List Nat) : List Nat :=
  prefixSumLoop counts 0

/-- The descending loop of `IndexTable::revertPointer` (IndexTable.h:231-233):
for `i` from `tableSize` down to `1`, `offsets[i] = offsets[i-1]`. -/
def revertLoop (cell : Nat → Nat) : Nat → (Nat → Nat)
  | 0 => cell
  | t + 1 => revertLoop (Function.update cell (t + 1) (cell t)) t

/-- `IndexTable::revertPointer` (IndexTable.h:230-235): shift cells right by
one, then `offsets[0] = 0`. -/
def revertPointer (tableSize : Nat) (cell : Nat → Nat) : Nat → Nat :=
  Function.update (revertLoop cell tableSize) 0 0

/-- `IndexTable::getDBSeqList` (IndexTable.h:170-174): returns the bucket
start `offsets[kmer]` (the `entries` index of the returned pointer) and
`matchedListSize`, the `ptrdiff_t` difference `offsets[kmer+1] -
offsets[kmer]` cast to `size_t` (modelled modulo `2^64`). -/
def getDBSeqList (offsets : Nat → Nat) (kmer : Nat) : Nat × Nat :=
  (offsets kmer,
   ((((offsets (kmer + 1)) : Int) - ((offsets kmer) : Int)) % (2 ^ 64)).toNat)

/-- `IndexTable::getUpperBoundAACountForKmerSize` (IndexTable.h:414-424):
`6 ↦ 3350000000`, `7 ↦ SIZE_MAX - 1` (with `SIZE_MAX = 2^64 - 1`), every other
k-mer size is rejected with an error (`Debug(ERROR)` followed by
`EXIT(EXIT_FAILURE)`). -/
def getUpperBoundAACountForKmerSize (kmerSize : Int) : Except String Nat :=
  if kmerSize = 6 then Except.ok 3350000000
  else if kmerSize = 7 then Except.ok (2 ^ 64 - 1 - 1)
  else Except.error ("Invalid kmer size of " ++ toString kmerSize ++ "!")

/-- `IndexTable::computeKmerSize` (IndexTable.h:409-411):
`aaSize < getUpperBoundAACountForKmerSize(6) ? 6 : 7`. -/
def computeKmerSize (aaSize : Nat) : Except String Nat :=
  match getUpperBoundAACountForKmerSize 6 with
  | Except.ok bound => Except.ok (if aaSize < bound then 6 else 7)
  | Except.error e => Except.error e

/-- Modelled from the spec: `Util::checkAllocation` (the `Util.h` header is
not part of the source tree) surfaces an allocation failure — the spec's
"fails with `AllocFailed` if memory cannot be acquired" — exactly when the
checked pointer is null. -/
def checkAllocation (pointer : Option (Nat → Nat)) (message : String) :
    Except String Unit :=
  match pointer with
  | none => Except.error message
  | some _ => Except.ok ()

/-- The `memset(offsets, 0, (tableSize + 1) * sizeof(size_t))` call of the
constructor (IndexTable.h:69).  `none` models a null pointer returned by
`new(std::nothrow)`; the Bool records whether this call wrote through an
unallocated buffer. -/
def memsetZero (tableSize : Nat) (pointer : Option (Nat → Nat)) :
    Option (Nat → Nat) × Bool :=
  match pointer with
  | some buf => (some fun i => if i < tableSize + 1 then 0 else buf i, false)
  | none => (none, true)

/-- The `externalData == false` branch of the `IndexTable` constructor
(IndexTable.h:63-72), in source order: allocate (`alloc` is the result of
`new(std::nothrow) size_t[tableSize + 1]`, `none` on failure), then `memset`
the buffer to zero, then `Util::checkAllocation`.  Returns the offsets buffer
or the surfaced error, paired with the flag recording whether a write through
an unallocated buffer happened. -/
def indexTableCtor (tableSize : Nat) (alloc : Option (Nat → Nat)) :
    Except String (Nat → Nat) × Bool :=
  let ms := memsetZero tableSize alloc
  match checkAllocation ms.1 "Could not allocate entries memory in IndexTable::initMemory" with
  | Except.error e => (Except.error e, ms.2)
  | Except.ok _ =>
    match ms.1 with
    | some buf => (Except.ok buf, ms.2)
    | none => (Except.error "unreachable", ms.2)

/-- The deduplication pattern of the walks above, abstracted over the key that
the `prev` variable tracks: the sublist of records that the loop acts on
(those whose key differs from the immediately preceding record's key). -/
def keptBy (key : α → Nat) (prev : Nat) : List α → List α
  | [] => []
  | t :: ts =>
    if key t ≠ prev then t :: keptBy key (key t) ts else keptBy key (key t) ts

theorem keptBy_sublist (key : α → Nat) :
    ∀ (l : List α) (prev : Nat), (keptBy key prev l).Sublist l
  | [], _ => List.Sublist.refl _
  | t :: ts, prev => by
    simp only [keptBy]
    split
    · exact (keptBy_sublist key ts (key t)).cons₂ t
    · exact (keptBy_sublist key ts (key t)).cons t

theorem keptBy_mem_key (key : α → Nat) :
    ∀ (l : List α) (prev : Nat), ∀ x ∈ l,
      key x = prev ∨ key x ∈ (keptBy key prev l).map key
  | t :: ts, prev, x, hx => by
    simp only [keptBy]
    rcases List.mem_cons.mp hx with rfl | hx'
    · by_cases hk : key x ≠ prev
      · right
        rw [if_pos hk]
        simp
      · left
        omega
    · rcases keptBy_mem_key key ts (key t) x hx' with h | h
      · by_cases hk : key t ≠ prev
        · right
          rw [if_pos hk, List.map_cons, h]
          simp
        · left
          omega
      · right
        split
        · simpa using Or.inr h
        · exact h

theorem keptBy_gt_of_le (key : α → Nat) :
    ∀ (l : List α), l.Pairwise (fun a b => key a ≤ key b) →
      ∀ (prev : Nat), (∀ x ∈ l, prev ≤ key x) →
      (∀ x ∈ keptBy key prev l, prev < key x) ∧
        ((keptBy key prev l).map key).Pairwise (· < ·)
  | [], _, prev, _ => by simp [keptBy]
  | t :: ts, hpw, prev, hlb => by
    have hpw' := List.pairwise_cons.mp hpw
    have ih := keptBy_gt_of_le key ts hpw'.2 (key t) hpw'.1
    by_cases hk : key t ≠ prev
    · have hprev : prev < key t := by
        have := hlb t (List.mem_cons_self t ts)
        omega
      simp only [keptBy, if_pos hk]
      refine ⟨?_, ?_⟩
      · intro x hx
        rcases List.mem_cons.mp hx with rfl | hx'
        · exact hprev
        · exact lt_trans hprev (ih.1 x hx')
      · rw [List.map_cons]
        refine List.pairwise_cons.mpr ⟨?_, ih.2⟩
        intro b hb
        obtain ⟨x, hx, rfl⟩ := List.mem_map.mp hb
        exact ih.1 x hx
    · have hk' : key t = prev := by omega
      simp only [keptBy, if_neg hk]
      refine ⟨?_, ih.2⟩
      intro x hx
      have := ih.1 x hx
      omega

theorem keptBy_pairwise_lt_top (key : α → Nat) (l : List α) (M : Nat)
    (hpw : l.Pairwise (fun a b => key a ≤ key b)) (hub : ∀ x ∈ l, key x < M) :
    ((keptBy key M l).map key).Pairwise (· < ·) := by
  cases l with
  | nil => simp [keptBy]
  | cons t ts =>
    have hpw' := List.pairwise_cons.mp hpw
    have hk : key t ≠ M := Nat.ne_of_lt (hub t (List.mem_cons_self t ts))
    have ih := keptBy_gt_of_le key ts hpw'.2 (key t) hpw'.1
    simp only [keptBy, if_pos hk, List.map_cons]
    refine List.pairwise_cons.mpr ⟨?_, ih.2⟩
    intro b hb
    obtain ⟨x, hx, rfl⟩ := List.mem_map.mp hb
    exact ih.1 x hx

theorem keptBy_nodup_top (key : α → Nat) (l : List α) (M : Nat)
    (hpw : l.Pairwise (fun a b => key a ≤ key b)) (hub : ∀ x ∈ l, key x < M) :
    ((keptBy key M l).map key).Nodup :=
  (keptBy_pairwise_lt_top key l M hpw hub).imp Nat.ne_of_lt

theorem mem_keptBy_top (key : α → Nat) (l : List α) (M : Nat)
    (hub : ∀ x ∈ l, key x < M) : ∀ x ∈ l, key x ∈ (keptBy key M l).map key := by
  intro x hx
  rcases keptBy_mem_key key l M x hx with h | h
  · exact absurd h (Nat.ne_of_lt (hub x hx))
  · exact h

theorem keptBy_minpos (key val : α → Nat) :
    ∀ (l : List α),
      l.Pairwise (fun a b => key a < key b ∨ (key a = key b ∧ val a ≤ val b)) →
      ∀ (prev : Nat), (∀ x ∈ l, prev ≤ key x) →
      ∀ t ∈ keptBy key prev l, ∀ u ∈ l, key u = key t → val t ≤ val u
  | [], _, prev, _ => by simp [keptBy]
  | t :: ts, hpw, prev, hlb => by
    intro t' ht' u hu hku
    have hpwk : (t :: ts).Pairwise (fun a b => key a ≤ key b) := by
      refine hpw.imp ?_
      intro a b h
      rcases h with h | ⟨h, _⟩ <;> omega
    have hpw' := List.pairwise_cons.mp hpw
    have hpwk' := List.pairwise_cons.mp hpwk
    by_cases hk : key t ≠ prev
    · rw [keptBy, if_pos hk] at ht'
      rcases List.mem_cons.mp ht' with rfl | ht''
      · rcases List.mem_cons.mp hu with rfl | hu'
        · exact le_refl _
        · rcases hpw'.1 u hu' with h | ⟨_, h⟩
          · omega
          · exact h
      · have hgt := (keptBy_gt_of_le key ts hpwk'.2 (key t) hpwk'.1).1 t' ht''
        rcases List.mem_cons.mp hu with rfl | hu'
        · omega
        · exact keptBy_minpos key val ts hpw'.2 (key t) hpwk'.1 t' ht'' u hu' hku
    · rw [keptBy, if_neg hk] at ht'
      have hgt := (keptBy_gt_of_le key ts hpwk'.2 (key t) hpwk'.1).1 t' ht'
      rcases List.mem_cons.mp hu with rfl | hu'
      · omega
      · exact keptBy_minpos key val ts hpw'.2 (key t) hpwk'.1 t' ht' u hu' hku

theorem keptBy_minpos_top (key val : α → Nat) (l : List α) (M : Nat)
    (hpw : l.Pairwise (fun a b => key a < key b ∨ (key a = key b ∧ val a ≤ val b)))
    (hub : ∀ x ∈ l, key x < M) :
    ∀ t ∈ keptBy key M l, ∀ u ∈ l, key u = key t → val t ≤ val u := by
  cases l with
  | nil => simp [keptBy]
  | cons t ts =>
    intro t' ht' u hu hku
    have hpwk : (t :: ts).Pairwise (fun a b => key a ≤ key b) := by
      refine hpw.imp ?_
      intro a b h
      rcases h with h | ⟨h, _⟩ <;> omega
    have hpw' := List.pairwise_cons.mp hpw
    have hpwk' := List.pairwise_cons.mp hpwk
    have hk : key t ≠ M := Nat.ne_of_lt (hub t (List.mem_cons_self t ts))
    rw [keptBy, if_pos hk] at ht'
    rcases List.mem_cons.mp ht' with rfl | ht''
    · rcases List.mem_cons.mp hu with rfl | hu'
      · exact le_refl _
      · rcases hpw'.1 u hu' with h | ⟨_, h⟩
        · omega
        · exact h
    · have hgt := (keptBy_gt_of_le key ts hpwk'.2 (key t) hpwk'.1).1 t' ht''
      rcases List.mem_cons.mp hu with rfl | hu'
      · omega
      · exact keptBy_minpos key val ts hpw'.2 (key t) hpwk'.1 t' ht'' u hu' hku

theorem keptBy_length_toFinset (key : α → Nat) (l : List α) (M : Nat)
    (hpw : l.Pairwise (fun a b => key a ≤ key b)) (hub : ∀ x ∈ l, key x < M) :
    (keptBy key M l).length = (l.map key).toFinset.card := by
  have hnd := keptBy_nodup_top key l M hpw hub
  have hset : ((keptBy key M l).map key).toFinset = (l.map key).toFinset := by
    apply Finset.ext
    intro j
    simp only [List.mem_toFinset, List.mem_map]
    constructor
    · rintro ⟨x, hx, rfl⟩
      exact ⟨x, (keptBy_sublist key l M).subset hx, rfl⟩
    · rintro ⟨x, hx, rfl⟩
      exact List.mem_map.mp (mem_keptBy_top key l M hub x hx)
  calc (keptBy key M l).length
      = ((keptBy key M l).map key).length := (List.length_map _ _).symm
    _ = ((keptBy key M l).map key).toFinset.card := (List.toFinset_card_of_nodup hnd).symm
    _ = (l.map key).toFinset.card := by rw [hset]

theorem countLoop_offsets :
    ∀ (l : List Nat) (o : Nat → Nat) (prev c i : Nat),
      (countLoop o prev c l).offsets i = o i + (keptBy id prev l).count i
  | [], o, prev, c, i => by simp [countLoop, keptBy]
  | k :: ks, o, prev, c, i => by
    simp only [countLoop, keptBy, id_eq]
    by_cases hk : prev ≠ k
    · rw [if_pos hk, if_pos hk.symm, countLoop_offsets ks _ k (c + 1) i]
      rw [List.count_cons]
      simp only [Function.update_apply]
      by_cases hik : i = k
      · subst hik
        simp
        omega
      · have : ¬ (k == i) = true := by simpa using fun h => hik h.symm
        simp [hik, this]
    · have hk' : prev = k := by omega
      rw [if_neg hk, if_neg (by omega : ¬ k ≠ prev)]
      exact countLoop_offsets ks o k c i

theorem countLoop_count :
    ∀ (l : List Nat) (o : Nat → Nat) (prev c : Nat),
      (countLoop o prev c l).countUniqKmer = c + (keptBy id prev l).length
  | [], o, prev, c => by simp [countLoop, keptBy]
  | k :: ks, o, prev, c => by
    simp only [countLoop, keptBy, id_eq]
    by_cases hk : prev ≠ k
    · rw [if_pos hk, if_pos hk.symm, countLoop_count ks _ k (c + 1)]
      simp only [List.length_cons]
      omega
    · rw [if_neg hk, if_neg (by omega : ¬ k ≠ prev)]
      exact countLoop_count ks o k c

theorem fillLoop_offsets :
    ∀ (l : List IndexEntryLocalTmp) (o : Nat → Nat) (prev i : Nat),
      (fillLoop o prev l).offsets i
        = o i + ((keptBy IndexEntryLocalTmp.kmer prev l).map IndexEntryLocalTmp.kmer).count i
  | [], o, prev, i => by simp [fillLoop, keptBy]
  | t :: ts, o, prev, i => by
    simp only [fillLoop, keptBy]
    by_cases hk : t.kmer ≠ prev
    · rw [if_pos hk, if_pos hk]
      show (fillLoop (Function.update o t.kmer (o t.kmer + 1)) t.kmer ts).offsets i = _
      rw [fillLoop_offsets ts _ t.kmer i, List.map_cons, List.count_cons]
      simp only [Function.update_apply]
      by_cases hik : i = t.kmer
      · subst hik
        simp
        omega
      · have : ¬ (t.kmer == i) = true := by simpa using fun h => hik h.symm
        simp [hik, this]
    · rw [if_neg hk, if_neg hk]
      exact fillLoop_offsets ts o t.kmer i

theorem fillLoop_trace :
    ∀ (l : List IndexEntryLocalTmp) (o : Nat → Nat) (prev : Nat),
      ((keptBy IndexEntryLocalTmp.kmer prev l).map IndexEntryLocalTmp.kmer).Nodup →
      (fillLoop o prev l).trace
        = (keptBy IndexEntryLocalTmp.kmer prev l).map
            (fun t => Posting.mk t.kmer (o t.kmer) t.seqId t.position_j)
  | [], o, prev, _ => by simp [fillLoop, keptBy]
  | t :: ts, o, prev, hnd => by
    simp only [fillLoop, keptBy]
    by_cases hk : t.kmer ≠ prev
    · rw [if_pos hk, if_pos hk]
      simp only [keptBy, if_pos hk, List.map_cons] at hnd
      have hnotin := (List.nodup_cons.mp hnd).1
      have hnd' := (List.nodup_cons.mp hnd).2
      show (⟨t.kmer, o t.kmer, t.seqId, t.position_j⟩ : Posting)
          :: (fillLoop (Function.update o t.kmer (o t.kmer + 1)) t.kmer ts).trace = _
      rw [fillLoop_trace ts _ t.kmer hnd', List.map_cons]
      congr 1
      apply List.map_congr_left
      intro u hu
      have hne : u.kmer ≠ t.kmer := by
        intro h
        exact hnotin (List.mem_map.mpr ⟨u, hu, h⟩)
      rw [Function.update_noteq hne]
    · rw [if_neg hk, if_neg hk]
      simp only [keptBy, if_neg hk] at hnd
      exact fillLoop_trace ts o t.kmer hnd

theorem fillLoop_trace_kmer_mem :
    ∀ (l : List IndexEntryLocalTmp) (o : Nat → Nat) (prev : Nat),
      ∀ w ∈ (fillLoop o prev l).trace, w.kmer ∈ l.map IndexEntryLocalTmp.kmer
  | t :: ts, o, prev, w, hw => by
    simp only [fillLoop] at hw
    rw [List.map_cons]
    by_cases hk : t.kmer ≠ prev
    · rw [if_pos hk] at hw
      rcases List.mem_cons.mp hw with rfl | hw'
      · exact List.mem_cons_self _ _
      · exact List.mem_cons_of_mem _ (fillLoop_trace_kmer_mem ts _ t.kmer w hw')
    · rw [if_neg hk] at hw
      exact List.mem_cons_of_mem _ (fillLoop_trace_kmer_mem ts o t.kmer w hw)

theorem tmpLe_iff (a b : IndexEntryLocalTmp) :
    tmpLe a b = true
      ↔ (a.kmer < b.kmer ∨ (a.kmer = b.kmer ∧ a.position_j ≤ b.position_j)) := by
  unfold tmpLe comapreByIdAndPos
  split_ifs <;> simp <;> omega

theorem sortBuffer_perm (buffer : List IndexEntryLocalTmp) :
    (sortBuffer buffer).Perm buffer := by
  unfold sortBuffer
  split
  · exact List.mergeSort_perm buffer tmpLe
  · exact List.Perm.refl _

theorem sortBuffer_pairwise (buffer : List IndexEntryLocalTmp) :
    (sortBuffer buffer).Pairwise
      (fun a b => a.kmer < b.kmer ∨ (a.kmer = b.kmer ∧ a.position_j ≤ b.position_j)) := by
  unfold sortBuffer
  split
  · have h : (buffer.mergeSort tmpLe).Pairwise (fun a b => tmpLe a b = true) := by
      refine List.sorted_mergeSort ?_ ?_ buffer
      · intro a b c hab hbc
        rw [tmpLe_iff] at hab hbc ⊢
        omega
      · intro a b
        simp only [Bool.or_eq_true, tmpLe_iff]
        omega
    exact h.imp (fun hab => (tmpLe_iff _ _).mp hab)
  · rename_i h
    match buffer, h with
    | [], _ => exact List.Pairwise.nil
    | [a], _ => simp
    | a :: b :: ts, h => simp at h

theorem sortKmerBuffer_perm (buffer : List Nat) :
    (sortKmerBuffer buffer).Perm buffer := by
  unfold sortKmerBuffer
  split
  · exact List.mergeSort_perm buffer _
  · exact List.Perm.refl _

theorem sortKmerBuffer_pairwise (buffer : List Nat) :
    (sortKmerBuffer buffer).Pairwise (· ≤ ·) := by
  unfold sortKmerBuffer
  split
  · have h : (buffer.mergeSort (fun a b => decide (a ≤ b))).Pairwise
        (fun a b => (decide (a ≤ b)) = true) := by
      refine List.sorted_mergeSort ?_ ?_ buffer
      · intro a b c hab hbc
        simp at hab hbc ⊢
        omega
      · intro a b
        simp only [Bool.or_eq_true, decide_eq_true_eq]
        omega
    exact h.imp (fun hab => by simpa using hab)
  · rename_i h
    match buffer, h with
    | [], _ => exact List.Pairwise.nil
    | [a], _ => simp
    | a :: b :: ts, h => simp at h

theorem filter_eq_single_of_nodup (key : α → Nat) :
    ∀ (l : List α), (l.map key).Nodup → ∀ t ∈ l, ∀ i : Nat, key t = i →
      l.filter (fun u => key u == i) = [t]
  | a :: ls, hnd, t, ht, i, hi => by
    rw [List.map_cons, List.nodup_cons] at hnd
    rcases List.mem_cons.mp ht with rfl | ht'
    · rw [List.filter_cons, if_pos (by simpa using hi)]
      have : ls.filter (fun u => key u == i) = [] := by
        rw [List.filter_eq_nil_iff]
        intro u hu
        simp only [beq_iff_eq]
        intro hui
        exact hnd.1 (List.mem_map.mpr ⟨u, hu, by omega⟩)
      rw [this]
    · rw [List.filter_cons, if_neg, filter_eq_single_of_nodup key ls hnd.2 t ht' i hi]
      simp only [beq_iff_eq]
      intro hai
      exact hnd.1 (List.mem_map.mpr ⟨t, ht', by omega⟩)

theorem fillPhase_spec (buf : List IndexEntryLocalTmp) (o : Nat → Nat) (sid : Nat)
    (hub : ∀ t ∈ buf, t.kmer < UINT_MAX)
    (hsid : ∀ t ∈ buf, t.seqId = sid) (i : Nat) :
    ((fillLoop o UINT_MAX (sortBuffer buf)).offsets i
        = o i + (if i ∈ buf.map IndexEntryLocalTmp.kmer then 1 else 0))
    ∧ (i ∉ buf.map IndexEntryLocalTmp.kmer →
        (fillLoop o UINT_MAX (sortBuffer buf)).trace.filter (fun w => w.kmer == i) = [])
    ∧ (i ∈ buf.map IndexEntryLocalTmp.kmer →
        ∃ p, p ∈ (buf.filter (fun t => t.kmer == i)).map IndexEntryLocalTmp.position_j
          ∧ (∀ q ∈ (buf.filter (fun t => t.kmer == i)).map IndexEntryLocalTmp.position_j,
              p ≤ q)
          ∧ (fillLoop o UINT_MAX (sortBuffer buf)).trace.filter (fun w => w.kmer == i)
              = [⟨i, o i, sid, p⟩])
    ∧ (fillLoop o UINT_MAX (sortBuffer buf)).trace.length
        = (buf.map IndexEntryLocalTmp.kmer).toFinset.card := by
  have hperm : (sortBuffer buf).Perm buf := sortBuffer_perm buf
  have hpl := sortBuffer_pairwise buf
  have hkeys : (sortBuffer buf).Pairwise (fun a b => a.kmer ≤ b.kmer) := by
    refine hpl.imp ?_
    intro a b h
    rcases h with h | ⟨h, _⟩ <;> omega
  have hub' : ∀ t ∈ sortBuffer buf, t.kmer < UINT_MAX :=
    fun t ht => hub t (hperm.mem_iff.mp ht)
  have hnd := keptBy_nodup_top IndexEntryLocalTmp.kmer (sortBuffer buf) UINT_MAX hkeys hub'
  have htr := fillLoop_trace (sortBuffer buf) o UINT_MAX hnd
  have hmemiff : ∀ j : Nat,
      j ∈ (keptBy IndexEntryLocalTmp.kmer UINT_MAX (sortBuffer buf)).map
            IndexEntryLocalTmp.kmer
        ↔ j ∈ buf.map IndexEntryLocalTmp.kmer := by
    intro j
    constructor
    · intro hm
      obtain ⟨x, hx, rfl⟩ := List.mem_map.mp hm
      exact List.mem_map.mpr
        ⟨x, hperm.mem_iff.mp
          ((keptBy_sublist IndexEntryLocalTmp.kmer (sortBuffer buf) UINT_MAX).subset hx), rfl⟩
    · intro hm
      obtain ⟨x, hx, rfl⟩ := List.mem_map.mp hm
      exact mem_keptBy_top IndexEntryLocalTmp.kmer (sortBuffer buf) UINT_MAX hub' x
        (hperm.mem_iff.mpr hx)
  have hfm : (fillLoop o UINT_MAX (sortBuffer buf)).trace.filter (fun w => w.kmer == i)
      = ((keptBy IndexEntryLocalTmp.kmer UINT_MAX (sortBuffer buf)).filter
          (fun t => t.kmer == i)).map
          (fun t => Posting.mk t.kmer (o t.kmer) t.seqId t.position_j) := by
    rw [htr, List.filter_map]
    rfl
  refine ⟨?_, ?_, ?_, ?_⟩
  · rw [fillLoop_offsets]
    by_cases him : i ∈ buf.map IndexEntryLocalTmp.kmer
    · rw [if_pos him, List.count_eq_one_of_mem hnd ((hmemiff i).mpr him)]
    · rw [if_neg him, List.count_eq_zero_of_not_mem (fun h => him ((hmemiff i).mp h))]
  · intro him
    rw [hfm]
    have : (keptBy IndexEntryLocalTmp.kmer UINT_MAX (sortBuffer buf)).filter
        (fun t => t.kmer == i) = [] := by
      rw [List.filter_eq_nil_iff]
      intro t ht
      simp only [beq_iff_eq]
      intro hti
      exact him ((hmemiff i).mp (List.mem_map.mpr ⟨t, ht, hti⟩))
    rw [this, List.map_nil]
  · intro him
    obtain ⟨t₀, ht₀, ht₀k⟩ := List.mem_map.mp ((hmemiff i).mpr him)
    have ht₀buf : t₀ ∈ buf :=
      hperm.mem_iff.mp
        ((keptBy_sublist IndexEntryLocalTmp.kmer (sortBuffer buf) UINT_MAX).subset ht₀)
    refine ⟨t₀.position_j, ?_, ?_, ?_⟩
    · exact List.mem_map.mpr ⟨t₀, List.mem_filter.mpr ⟨ht₀buf, by simpa using ht₀k⟩, rfl⟩
    · intro q hq
      obtain ⟨u, hu, rfl⟩ := List.mem_map.mp hq
      have hu' := List.mem_filter.mp hu
      have huk : u.kmer = t₀.kmer := by
        have := hu'.2
        simp only [beq_iff_eq] at this
        omega
      exact keptBy_minpos_top IndexEntryLocalTmp.kmer IndexEntryLocalTmp.position_j
        (sortBuffer buf) UINT_MAX hpl hub' t₀ ht₀ u (hperm.mem_iff.mpr hu'.1) huk
    · rw [hfm, filter_eq_single_of_nodup IndexEntryLocalTmp.kmer _ hnd t₀ ht₀ i ht₀k,
        List.map_cons, List.map_nil]
      have hseq : t₀.seqId = sid := hsid t₀ ht₀buf
      rw [ht₀k, hseq]
  · rw [htr, List.length_map,
      keptBy_length_toFinset IndexEntryLocalTmp.kmer (sortBuffer buf) UINT_MAX hkeys hub']
    exact congrArg Finset.card (List.toFinset_eq_of_perm _ _ (hperm.map _))

theorem countPhase_spec (buf : List Nat) (o : Nat → Nat)
    (hub : ∀ k ∈ buf, k < UINT_MAX) (i : Nat) :
    ((countLoop o UINT_MAX 0 (sortKmerBuffer buf)).offsets i
        = o i + (if i ∈ buf then 1 else 0))
    ∧ (countLoop o UINT_MAX 0 (sortKmerBuffer buf)).countUniqKmer = buf.toFinset.card := by
  have hperm : (sortKmerBuffer buf).Perm buf := sortKmerBuffer_perm buf
  have hkeys : (sortKmerBuffer buf).Pairwise (fun a b => id a ≤ id b) :=
    sortKmerBuffer_pairwise buf
  have hub' : ∀ k ∈ sortKmerBuffer buf, id k < UINT_MAX :=
    fun k hk => hub k (hperm.mem_iff.mp hk)
  have hnd := keptBy_nodup_top id (sortKmerBuffer buf) UINT_MAX hkeys hub'
  rw [List.map_id] at hnd
  have hmemiff : ∀ j : Nat, j ∈ keptBy id UINT_MAX (sortKmerBuffer buf) ↔ j ∈ buf := by
    intro j
    constructor
    · intro hm
      exact hperm.mem_iff.mp ((keptBy_sublist id (sortKmerBuffer buf) UINT_MAX).subset hm)
    · intro hm
      have := mem_keptBy_top id (sortKmerBuffer buf) UINT_MAX hub' j (hperm.mem_iff.mpr hm)
      rw [List.map_id] at this
      exact this
  constructor
  · rw [countLoop_offsets]
    by_cases him : i ∈ buf
    · rw [if_pos him, List.count_eq_one_of_mem hnd ((hmemiff i).mpr him)]
    · rw [if_neg him, List.count_eq_zero_of_not_mem (fun h => him ((hmemiff i).mp h))]
  · rw [countLoop_count, keptBy_length_toFinset id (sortKmerBuffer buf) UINT_MAX hkeys hub',
      List.map_id]
    simpa using congrArg Finset.card (List.toFinset_eq_of_perm _ _ hperm)

theorem collectSeq_eq_filter (offsets : Nat → Nat) (idx : List Nat → Nat)
    (aaFrom aaSize : Nat) (threshold : Int) (diagonalScore : Nat → Int) (seqId : Nat) :
    ∀ ks : List KmerOcc,
      collectSeq offsets idx aaFrom aaSize threshold diagonalScore seqId ks
        = (ks.filter fun o =>
              decide (aaFrom ≤ idx o.sym ∧ idx o.sym < aaFrom + aaSize) &&
              ! decide (offsets (idx o.sym + 1) = offsets (idx o.sym)) &&
              ! decide (0 < threshold ∧ kmerScore diagonalScore o.sym < threshold)).map
            (fun o => ⟨idx o.sym, seqId, o.pos % 65536⟩)
  | [] => by simp [collectSeq]
  | o :: os => by
    have ih := collectSeq_eq_filter offsets idx aaFrom aaSize threshold diagonalScore seqId os
    rw [List.filter_cons]
    by_cases h1 : aaFrom ≤ idx o.sym ∧ idx o.sym < aaFrom + aaSize
    · by_cases h2 : offsets (idx o.sym + 1) = offsets (idx o.sym)
      · simp [collectSeq, h1, h2, ih]
      · by_cases h3 : 0 < threshold ∧ kmerScore diagonalScore o.sym < threshold
        · simp [collectSeq, h1, h2, h3, ih]
        · simp [collectSeq, h1, h2, h3, ih]
    · simp [collectSeq, h1, ih]

theorem collectCount_eq_filter (idx : List Nat → Nat) (threshold : Int)
    (diagonalScore : Nat → Int) :
    ∀ ks : List KmerOcc,
      collectCount idx threshold diagonalScore ks
        = (ks.filter fun o =>
              ! decide (0 < threshold ∧ kmerScore diagonalScore o.sym < threshold)).map
            (fun o => idx o.sym)
  | [] => by simp [collectCount]
  | o :: os => by
    have ih := collectCount_eq_filter idx threshold diagonalScore os
    rw [List.filter_cons]
    by_cases h3 : 0 < threshold ∧ kmerScore diagonalScore o.sym < threshold
    · simp [collectCount, h3, ih]
    · simp [collectCount, h3, ih]

theorem collectSim_eq_flatMap (offsets : Nat → Nat) (kmerGenerator : List Nat → List Nat)
    (aaFrom aaSize seqId : Nat) :
    ∀ ks : List KmerOcc,
      collectSim offsets kmerGenerator aaFrom aaSize seqId ks
        = ks.flatMap fun o =>
            ((kmerGenerator o.sym).filter fun kmerIdx =>
                decide (aaFrom ≤ kmerIdx ∧ kmerIdx < aaFrom + aaSize) &&
                ! decide (offsets (kmerIdx + 1) = offsets kmerIdx)).map
              (fun kmerIdx => ⟨kmerIdx, seqId, o.pos % 65536⟩)
  | [] => by simp [collectSim]
  | o :: os => by
    have ih := collectSim_eq_flatMap offsets kmerGenerator aaFrom aaSize seqId os
    simp [collectSim, ih]

/-- C1. For every sequence processed by `addSequence` with window
`[aaFrom, aaFrom + aaSize)`: for each distinct k-mer index `i` of the sequence
that lies in the window, whose bucket is not zero-length, and that passes the
score threshold, exactly one posting `{seqId, position}` is written, at the
slot given by the bucket's current cursor `offsets i`, using the smallest
(16-bit truncated) position at which that k-mer occurs among the
threshold-passing occurrences; every later occurrence of the same k-mer is
dropped, and the cursor `offsets i` increases by exactly 1 per written
posting; buckets without such an occurrence receive no posting and keep their
cursor.  (The hypothesis bounds the window by `UINT_MAX`: k-mer indices are
`unsigned int` bucket numbers, so the window never reaches `UINT_MAX`, the
sentinel of the deduplicating walk.) -/
theorem addSequence_postings_spec (offsets : Nat → Nat) (idx : List Nat → Nat)
    (aaFrom aaSize : Nat) (threshold : Int) (diagonalScore : Nat → Int) (seqId : Nat)
    (kmers : List KmerOcc) (hwin : aaFrom + aaSize ≤ UINT_MAX) (i : Nat) :
    ((∃ o ∈ kmers, idx o.sym = i ∧ (aaFrom ≤ i ∧ i < aaFrom + aaSize)
        ∧ offsets (i + 1) ≠ offsets i
        ∧ ¬ (0 < threshold ∧ kmerScore diagonalScore o.sym < threshold)) →
      ∃ p : Nat,
        (∃ o ∈ kmers, idx o.sym = i
            ∧ ¬ (0 < threshold ∧ kmerScore diagonalScore o.sym < threshold)
            ∧ o.pos % 65536 = p)
        ∧ (∀ o ∈ kmers, idx o.sym = i →
            ¬ (0 < threshold ∧ kmerScore diagonalScore o.sym < threshold) →
            p ≤ o.pos % 65536)
        ∧ (addSequence offsets idx aaFrom aaSize threshold diagonalScore seqId
            kmers).trace.filter (fun w => w.kmer == i) = [⟨i, offsets i, seqId, p⟩]
        ∧ (addSequence offsets idx aaFrom aaSize threshold diagonalScore seqId
            kmers).offsets i = offsets i + 1)
    ∧ ((¬ ∃ o ∈ kmers, idx o.sym = i ∧ (aaFrom ≤ i ∧ i < aaFrom + aaSize)
        ∧ offsets (i + 1) ≠ offsets i
        ∧ ¬ (0 < threshold ∧ kmerScore diagonalScore o.sym < threshold)) →
      (addSequence offsets idx aaFrom aaSize threshold diagonalScore seqId
          kmers).trace.filter (fun w => w.kmer == i) = []
      ∧ (addSequence offsets idx aaFrom aaSize threshold diagonalScore seqId
          kmers).offsets i = offsets i) := by
  have hbuf := collectSeq_eq_filter offsets idx aaFrom aaSize threshold diagonalScore
    seqId kmers
  set keepB : KmerOcc → Bool := fun o =>
    decide (aaFrom ≤ idx o.sym ∧ idx o.sym < aaFrom + aaSize) &&
    ! decide (offsets (idx o.sym + 1) = offsets (idx o.sym)) &&
    ! decide (0 < threshold ∧ kmerScore diagonalScore o.sym < threshold) with hkeepB
  set buf := collectSeq offsets idx aaFrom aaSize threshold diagonalScore seqId kmers
    with hbufdef
  have hub : ∀ t ∈ buf, t.kmer < UINT_MAX := by
    intro t ht
    rw [hbuf] at ht
    obtain ⟨o, ho, rfl⟩ := List.mem_map.mp ht
    have := (List.mem_filter.mp ho).2
    rw [hkeepB] at this
    simp only [Bool.and_eq_true, decide_eq_true_eq] at this
    show idx o.sym < UINT_MAX
    omega
  have hsid : ∀ t ∈ buf, t.seqId = seqId := by
    intro t ht
    rw [hbuf] at ht
    obtain ⟨o, _, rfl⟩ := List.mem_map.mp ht
    rfl
  have hchar := fillPhase_spec buf offsets seqId hub hsid i
  have haddSeq : addSequence offsets idx aaFrom aaSize threshold diagonalScore seqId kmers
      = fillLoop offsets UINT_MAX (sortBuffer buf) := rfl
  have hmem : i ∈ buf.map IndexEntryLocalTmp.kmer
      ↔ ∃ o ∈ kmers, idx o.sym = i ∧ (aaFrom ≤ i ∧ i < aaFrom + aaSize)
          ∧ offsets (i + 1) ≠ offsets i
          ∧ ¬ (0 < threshold ∧ kmerScore diagonalScore o.sym < threshold) := by
    rw [hbuf, List.map_map]
    simp only [List.mem_map, List.mem_filter, Function.comp]
    constructor
    · rintro ⟨o, ⟨ho, hk⟩, rfl⟩
      rw [hkeepB] at hk
      simp only [Bool.and_eq_true, decide_eq_true_eq, Bool.not_eq_eq_eq_not,
        Bool.not_true, decide_eq_false_iff_not] at hk
      exact ⟨o, ho, rfl, hk.1.1, hk.1.2, hk.2⟩
    · rintro ⟨o, ho, hio, hwini, hmaski, hthr⟩
      refine ⟨o, ⟨ho, ?_⟩, hio⟩
      rw [hkeepB]
      simp only [Bool.and_eq_true, decide_eq_true_eq, Bool.not_eq_eq_eq_not,
        Bool.not_true, decide_eq_false_iff_not]
      rw [hio]
      exact ⟨⟨hwini, hmaski⟩, hthr⟩
  constructor
  · intro hq
    have hqmem := hmem.mpr hq
    obtain ⟨p, hpmem, hpmin, htrf⟩ := hchar.2.2.1 hqmem
    obtain ⟨o₀, ho₀, hio₀, hwini, hmaski, _⟩ := hq
    refine ⟨p, ?_, ?_, ?_, ?_⟩
    · rw [hbuf, List.filter_map, List.map_map] at hpmem
      obtain ⟨o, ho, rfl⟩ := List.mem_map.mp hpmem
      have ho' := List.mem_filter.mp ho
      have hk' := (List.mem_filter.mp ho'.1).2
      rw [hkeepB] at hk'
      simp only [Bool.and_eq_true, decide_eq_true_eq, Bool.not_eq_eq_eq_not,
        Bool.not_true, decide_eq_false_iff_not] at hk'
      have hoi : idx o.sym = i := by
        have := ho'.2
        simp only [Function.comp, beq_iff_eq] at this
        exact this
      exact ⟨o, (List.mem_filter.mp ho'.1).1, hoi, hk'.2, rfl⟩
    · intro o ho hio hthro
      apply hpmin
      rw [hbuf, List.filter_map, List.map_map]
      refine List.mem_map.mpr ⟨o, ?_, rfl⟩
      refine List.mem_filter.mpr ⟨List.mem_filter.mpr ⟨ho, ?_⟩, ?_⟩
      · rw [hkeepB]
        simp only [Bool.and_eq_true, decide_eq_true_eq, Bool.not_eq_eq_eq_not,
          Bool.not_true, decide_eq_false_iff_not]
        rw [hio]
        exact ⟨⟨hwini, hmaski⟩, hthro⟩
      · simp only [Function.comp, beq_iff_eq]
        exact hio
    · rw [haddSeq]
      exact htrf
    · rw [haddSeq, hchar.1, if_pos hqmem]
  · intro hq
    have hni : i ∉ buf.map IndexEntryLocalTmp.kmer := fun h => hq (hmem.mp h)
    refine ⟨?_, ?_⟩
    · rw [haddSeq]
      exact hchar.2.1 hni
    · rw [haddSeq, hchar.1, if_neg hni]
      omega

/-- C2. For every sequence processed by `addKmerCount` with threshold
`threshold`: a k-mer yielded by the cursor is kept iff `threshold ≤ 0` or the
sum of `diagonalScore` over its symbols is at least `threshold`; the bucket
count `offsets i` of each distinct kept k-mer index `i` is incremented by
exactly 1 (buckets of non-kept or duplicate k-mers are unchanged); and the
returned value equals the number of distinct kept k-mer indices of the
sequence.  (The hypothesis states that k-mer indices are valid `unsigned int`
bucket numbers below `UINT_MAX`, the sentinel of the deduplicating walk.) -/
theorem addKmerCount_spec (offsets : Nat → Nat) (idx : List Nat → Nat) (threshold : Int)
    (diagonalScore : Nat → Int) (kmers : List KmerOcc)
    (hub : ∀ o ∈ kmers, idx o.sym < UINT_MAX) :
    (∀ i : Nat,
      ((∃ o ∈ kmers, (threshold ≤ 0 ∨ threshold ≤ kmerScore diagonalScore o.sym)
          ∧ idx o.sym = i) →
        (addKmerCount offsets idx threshold diagonalScore kmers).offsets i = offsets i + 1)
      ∧ ((¬ ∃ o ∈ kmers, (threshold ≤ 0 ∨ threshold ≤ kmerScore diagonalScore o.sym)
          ∧ idx o.sym = i) →
        (addKmerCount offsets idx threshold diagonalScore kmers).offsets i = offsets i))
    ∧ (addKmerCount offsets idx threshold diagonalScore kmers).countUniqKmer
        = ((kmers.filter fun o =>
              decide (threshold ≤ 0 ∨ threshold ≤ kmerScore diagonalScore o.sym)).map
            fun o => idx o.sym).toFinset.card := by
  have hpred : ∀ o : KmerOcc,
      (! decide (0 < threshold ∧ kmerScore diagonalScore o.sym < threshold))
        = decide (threshold ≤ 0 ∨ threshold ≤ kmerScore diagonalScore o.sym) := by
    intro o
    by_cases h : 0 < threshold ∧ kmerScore diagonalScore o.sym < threshold
    · have h' : ¬ (threshold ≤ 0 ∨ threshold ≤ kmerScore diagonalScore o.sym) := by omega
      simp [h, h']
    · have h' : threshold ≤ 0 ∨ threshold ≤ kmerScore diagonalScore o.sym := by omega
      simp [h, h']
  have hbuf : collectCount idx threshold diagonalScore kmers
      = (kmers.filter fun o =>
          decide (threshold ≤ 0 ∨ threshold ≤ kmerScore diagonalScore o.sym)).map
          fun o => idx o.sym := by
    rw [collectCount_eq_filter]
    congr 1
    exact List.filter_congr (fun o _ => hpred o)
  have hub' : ∀ k ∈ collectCount idx threshold diagonalScore kmers, k < UINT_MAX := by
    intro k hk
    rw [hbuf] at hk
    obtain ⟨o, ho, rfl⟩ := List.mem_map.mp hk
    exact hub o (List.mem_filter.mp ho).1
  have haddKC : addKmerCount offsets idx threshold diagonalScore kmers
      = countLoop offsets UINT_MAX 0
          (sortKmerBuffer (collectCount idx threshold diagonalScore kmers)) := rfl
  have hmem : ∀ i : Nat, i ∈ collectCount idx threshold diagonalScore kmers
      ↔ ∃ o ∈ kmers, (threshold ≤ 0 ∨ threshold ≤ kmerScore diagonalScore o.sym)
          ∧ idx o.sym = i := by
    intro i
    rw [hbuf]
    simp only [List.mem_map, List.mem_filter, decide_eq_true_eq]
    constructor
    · rintro ⟨o, ⟨ho, hko⟩, rfl⟩
      exact ⟨o, ho, hko, rfl⟩
    · rintro ⟨o, ho, hko, rfl⟩
      exact ⟨o, ⟨ho, hko⟩, rfl⟩
  constructor
  · intro i
    have hchar := countPhase_spec (collectCount idx threshold diagonalScore kmers)
      offsets hub' i
    constructor
    · intro hq
      rw [haddKC, hchar.1, if_pos ((hmem i).mpr hq)]
    · intro hq
      rw [haddKC, hchar.1, if_neg (fun h => hq ((hmem i).mp h))]
      omega
  · have hchar := countPhase_spec (collectCount idx threshold diagonalScore kmers)
      offsets hub' 0
    rw [haddKC, hchar.2, hbuf]

/-- C3. Count-fill parity: for every sequence, under identical filter
parameters, with the full window `aaFrom = 0`, `aaSize = tableSize` and no
counted bucket masked at the start of fill, the value returned by
`addKmerCount` for that sequence equals the number of postings `addSequence`
writes for that sequence.  (The hypotheses state that the threshold-passing
k-mer indices are valid bucket numbers below `tableSize ≤ UINT_MAX` and that
their buckets have nonzero length in the fill-time offsets.) -/
theorem count_fill_parity (offsetsCount offsetsFill : Nat → Nat) (idx : List Nat → Nat)
    (threshold : Int) (diagonalScore : Nat → Int) (seqId tableSize : Nat)
    (kmers : List KmerOcc)
    (hT : tableSize ≤ UINT_MAX)
    (hidx : ∀ o ∈ kmers, ¬ (0 < threshold ∧ kmerScore diagonalScore o.sym < threshold) →
      idx o.sym < tableSize)
    (hmask : ∀ o ∈ kmers, ¬ (0 < threshold ∧ kmerScore diagonalScore o.sym < threshold) →
      offsetsFill (idx o.sym + 1) ≠ offsetsFill (idx o.sym)) :
    (addKmerCount offsetsCount idx threshold diagonalScore kmers).countUniqKmer
      = (addSequence offsetsFill idx 0 tableSize threshold diagonalScore seqId
          kmers).trace.length := by
  have hfilters : kmers.filter (fun o =>
        decide (0 ≤ idx o.sym ∧ idx o.sym < 0 + tableSize) &&
        ! decide (offsetsFill (idx o.sym + 1) = offsetsFill (idx o.sym)) &&
        ! decide (0 < threshold ∧ kmerScore diagonalScore o.sym < threshold))
      = kmers.filter (fun o =>
        ! decide (0 < threshold ∧ kmerScore diagonalScore o.sym < threshold)) := by
    apply List.filter_congr
    intro o ho
    by_cases hthr : 0 < threshold ∧ kmerScore diagonalScore o.sym < threshold
    · simp [hthr]
    · have h1 : 0 ≤ idx o.sym ∧ idx o.sym < 0 + tableSize := by
        have := hidx o ho hthr
        omega
      have h2 : ¬ (offsetsFill (idx o.sym + 1) = offsetsFill (idx o.sym)) :=
        hmask o ho hthr
      simp [hthr, h1, h2]
      omega
  have hubC : ∀ k ∈ collectCount idx threshold diagonalScore kmers, k < UINT_MAX := by
    intro k hk
    rw [collectCount_eq_filter] at hk
    obtain ⟨o, ho, rfl⟩ := List.mem_map.mp hk
    have ho' := List.mem_filter.mp ho
    have hthr : ¬ (0 < threshold ∧ kmerScore diagonalScore o.sym < threshold) := by
      have h2 := ho'.2
      simp at h2
      omega
    have := hidx o ho'.1 hthr
    omega
  have hbufF := collectSeq_eq_filter offsetsFill idx 0 tableSize threshold diagonalScore
    seqId kmers
  have hubF : ∀ t ∈ collectSeq offsetsFill idx 0 tableSize threshold diagonalScore seqId
      kmers, t.kmer < UINT_MAX := by
    intro t ht
    rw [hbufF] at ht
    obtain ⟨o, ho, rfl⟩ := List.mem_map.mp ht
    have := (List.mem_filter.mp ho).2
    simp only [Bool.and_eq_true, decide_eq_true_eq] at this
    show idx o.sym < UINT_MAX
    omega
  have hsidF : ∀ t ∈ collectSeq offsetsFill idx 0 tableSize threshold diagonalScore seqId
      kmers, t.seqId = seqId := by
    intro t ht
    rw [hbufF] at ht
    obtain ⟨o, _, rfl⟩ := List.mem_map.mp ht
    rfl
  have hcount := (countPhase_spec (collectCount idx threshold diagonalScore kmers)
    offsetsCount hubC 0).2
  have hfill := (fillPhase_spec (collectSeq offsetsFill idx 0 tableSize threshold
    diagonalScore seqId kmers) offsetsFill seqId hubF hsidF 0).2.2.2
  have hC : addKmerCount offsetsCount idx threshold diagonalScore kmers
      = countLoop offsetsCount UINT_MAX 0
          (sortKmerBuffer (collectCount idx threshold diagonalScore kmers)) := rfl
  have hF : addSequence offsetsFill idx 0 tableSize threshold diagonalScore seqId kmers
      = fillLoop offsetsFill UINT_MAX
          (sortBuffer (collectSeq offsetsFill idx 0 tableSize threshold diagonalScore
            seqId kmers)) := rfl
  rw [hC, hF, hcount, hfill, collectCount_eq_filter, hbufF, List.map_map]
  rw [← hfilters]
  rfl

theorem take_sum_le_take_succ_sum :
    ∀ (l : List Nat) (i : Nat), (l.take i).sum ≤ (l.take (i + 1)).sum
  | [], i => by simp
  | c :: cs, 0 => by simp
  | c :: cs, i + 1 => by
    simp only [List.take_succ_cons, List.sum_cons]
    have := take_sum_le_take_succ_sum cs i
    omega

theorem prefixSumLoop_length :
    ∀ (cs : List Nat) (acc : Nat), (prefixSumLoop cs acc).length = cs.length + 1
  | [], acc => rfl
  | c :: cs, acc => by
    simp [prefixSumLoop, prefixSumLoop_length cs (acc + c)]

theorem prefixSumLoop_getD :
    ∀ (cs : List Nat) (acc i : Nat), i ≤ cs.length →
      (prefixSumLoop cs acc).getD i 0 = acc + (cs.take i).sum
  | [], acc, 0, _ => by simp [prefixSumLoop]
  | c :: cs, acc, 0, _ => by simp [prefixSumLoop]
  | c :: cs, acc, i + 1, h => by
    simp only [prefixSumLoop, List.getD_cons_succ]
    rw [prefixSumLoop_getD cs (acc + c) i (by simpa using h)]
    simp only [List.take_succ_cons, List.sum_cons]
    omega

/-- C4. For every counts array, after the prefix sum (`init`) each cell
`i < counts.length` holds the sum of the original counts of cells
`0 .. i - 1`, the final cell holds the total of all counts, and the resulting
array is monotonically non-decreasing. -/
theorem init_prefix_sum_spec (counts : List Nat) :
    (init counts).length = counts.length + 1
    ∧ (∀ i, i < counts.length → (init counts).getD i 0 = (counts.take i).sum)
    ∧ (init counts).getD counts.length 0 = counts.sum
    ∧ (∀ i, i < counts.length → (init counts).getD i 0 ≤ (init counts).getD (i + 1) 0) := by
  refine ⟨prefixSumLoop_length counts 0, ?_, ?_, ?_⟩
  · intro i hi
    rw [init, prefixSumLoop_getD counts 0 i (le_of_lt hi)]
    omega
  · rw [init, prefixSumLoop_getD counts 0 counts.length (le_refl _), List.take_length]
    omega
  · intro i hi
    rw [init, prefixSumLoop_getD counts 0 i (by omega),
      prefixSumLoop_getD counts 0 (i + 1) (by omega)]
    have := take_sum_le_take_succ_sum counts i
    omega

theorem revertLoop_apply :
    ∀ (t : Nat) (cell : Nat → Nat) (i : Nat),
      revertLoop cell t i = if 1 ≤ i ∧ i ≤ t then cell (i - 1) else cell i
  | 0, cell, i => by
    simp only [revertLoop]
    rw [if_neg (by omega)]
  | t + 1, cell, i => by
    simp only [revertLoop]
    rw [revertLoop_apply t _ i]
    by_cases h : 1 ≤ i ∧ i ≤ t
    · rw [if_pos h, if_pos (by omega)]
      rw [Function.update_noteq (by omega : i - 1 ≠ t + 1)]
    · by_cases h2 : i = t + 1
      · subst h2
        rw [if_neg h, if_pos (by omega)]
        rw [Function.update_same]
        congr 1
      · rw [if_neg h, if_neg (by omega)]
        rw [Function.update_noteq h2]

/-- C5. `revertPointer` sets `cell i` to the previous value of `cell (i - 1)`
for every `i` from `tableSize` down to 1 and sets `cell 0` to 0;
consequently, if the fill phase advanced every bucket's cursor exactly to the
next bucket's start offset (the stage-3 value `(init counts).getD (i + 1) 0`),
then after the rewind every cell again equals the start offset of its bucket
as it was immediately after the prefix sum. -/
theorem revertPointer_spec (tableSize : Nat) (cellPost : Nat → Nat) (counts : List Nat)
    (hT : tableSize = counts.length)
    (hfill : ∀ i, i < tableSize → cellPost i = (init counts).getD (i + 1) 0) :
    (∀ cell : Nat → Nat, revertPointer tableSize cell 0 = 0)
    ∧ (∀ cell : Nat → Nat, ∀ i, 1 ≤ i → i ≤ tableSize →
        revertPointer tableSize cell i = cell (i - 1))
    ∧ (∀ i, i ≤ tableSize → revertPointer tableSize cellPost i = (init counts).getD i 0) := by
  have h0 : ∀ cell : Nat → Nat, revertPointer tableSize cell 0 = 0 := by
    intro cell
    rw [revertPointer, Function.update_same]
  have h1 : ∀ cell : Nat → Nat, ∀ i, 1 ≤ i → i ≤ tableSize →
      revertPointer tableSize cell i = cell (i - 1) := by
    intro cell i hi1 hi2
    rw [revertPointer, Function.update_noteq (by omega), revertLoop_apply,
      if_pos ⟨hi1, hi2⟩]
  refine ⟨h0, h1, ?_⟩
  intro i hi
  rcases Nat.eq_zero_or_pos i with rfl | hpos
  · rw [h0, init, prefixSumLoop_getD counts 0 0 (by omega)]
    simp
  · obtain ⟨j, rfl⟩ : ∃ j, i = j + 1 := ⟨i - 1, by omega⟩
    rw [h1 cellPost (j + 1) (by omega) hi]
    have := hfill j (by omega)
    simpa using this

theorem flatMap_congr_mem :
    ∀ (l : List α) (f g : α → List β), (∀ a ∈ l, f a = g a) → l.flatMap f = l.flatMap g
  | [], _, _, _ => rfl
  | a :: as, f, g, h => by
    simp only [List.flatMap_cons]
    rw [h a (List.mem_cons_self a as),
      flatMap_congr_mem as f g (fun x hx => h x (List.mem_cons_of_mem a hx))]

theorem mem_map_kmer_iff (buf : List IndexEntryLocalTmp) (j : Nat) :
    j ∈ buf.map IndexEntryLocalTmp.kmer ↔ buf.filter (fun t => t.kmer == j) ≠ [] := by
  constructor
  · rintro hm hnil
    obtain ⟨t, ht, rfl⟩ := List.mem_map.mp hm
    have hmem : t ∈ buf.filter (fun u => u.kmer == t.kmer) :=
      List.mem_filter.mpr ⟨ht, by simp⟩
    rw [hnil] at hmem
    exact List.not_mem_nil t hmem
  · intro h
    rcases hne : buf.filter (fun t => t.kmer == j) with _ | ⟨t, ts⟩
    · exact absurd hne h
    · have hmem : t ∈ buf.filter (fun t => t.kmer == j) := by
        rw [hne]
        exact List.mem_cons_self _ _
      have h2 := List.mem_filter.mp hmem
      exact List.mem_map.mpr ⟨t, h2.1, by simpa using h2.2⟩

theorem mask_check_congr (o : Nat → Nat) (m j : Nat) (hmono : ∀ i, o i ≤ o (i + 1))
    (hj : j ≠ m) (hne : o (j + 1) ≠ o j) :
    (Function.update o m (o (m + 1)) (j + 1) = Function.update o m (o (m + 1)) j)
      ↔ (o (j + 1) = o j) := by
  rw [Function.update_apply, Function.update_apply, if_neg hj]
  by_cases hjm : j + 1 = m
  · rw [if_pos hjm]
    subst hjm
    constructor
    · intro h
      exfalso
      have h1 := hmono j
      have h2 := hmono (j + 1)
      omega
    · intro h
      exact absurd h hne
  · rw [if_neg hjm]

theorem collectSeq_filter_frame (o : Nat → Nat) (m : Nat) (idx : List Nat → Nat)
    (aaFrom aaSize : Nat) (threshold : Int) (diagonalScore : Nat → Int) (seqId : Nat)
    (kmers : List KmerOcc) (hmono : ∀ i, o i ≤ o (i + 1)) (j : Nat) (hj : j ≠ m)
    (hne : o (j + 1) ≠ o j) :
    (collectSeq (Function.update o m (o (m + 1))) idx aaFrom aaSize threshold
        diagonalScore seqId kmers).filter (fun t => t.kmer == j)
      = (collectSeq o idx aaFrom aaSize threshold diagonalScore seqId kmers).filter
          (fun t => t.kmer == j) := by
  rw [collectSeq_eq_filter, collectSeq_eq_filter, List.filter_map, List.filter_map]
  congr 1
  rw [List.filter_filter, List.filter_filter]
  apply List.filter_congr
  intro o_ _
  by_cases hij : idx o_.sym = j
  · have hmaskM : ¬ (Function.update o m (o (m + 1)) (j + 1)
        = Function.update o m (o (m + 1)) j) :=
      fun h => hne ((mask_check_congr o m j hmono hj hne).mp h)
    have hmaskM' : ¬ (Function.update o m (o (m + 1)) (idx o_.sym + 1)
        = Function.update o m (o (m + 1)) (idx o_.sym)) := by
      rw [hij]
      exact hmaskM
    have hne' : ¬ (o (idx o_.sym + 1) = o (idx o_.sym)) := by
      rw [hij]
      exact hne
    simp [Function.comp, hij, hmaskM, hmaskM', hne, hne']
  · have hfalse : (idx o_.sym == j) = false := by simpa using hij
    simp [Function.comp, hfalse]

theorem collectSim_filter_frame (o : Nat → Nat) (m : Nat)
    (kmerGenerator : List Nat → List Nat) (aaFrom aaSize seqId : Nat)
    (kmers : List KmerOcc) (hmono : ∀ i, o i ≤ o (i + 1)) (j : Nat) (hj : j ≠ m)
    (hne : o (j + 1) ≠ o j) :
    (collectSim (Function.update o m (o (m + 1))) kmerGenerator aaFrom aaSize seqId
        kmers).filter (fun t => t.kmer == j)
      = (collectSim o kmerGenerator aaFrom aaSize seqId kmers).filter
          (fun t => t.kmer == j) := by
  rw [collectSim_eq_flatMap, collectSim_eq_flatMap, List.filter_flatMap,
    List.filter_flatMap]
  apply flatMap_congr_mem
  intro o_ _
  rw [List.filter_map, List.filter_map]
  congr 1
  rw [List.filter_filter, List.filter_filter]
  apply List.filter_congr
  intro k _
  by_cases hkj : k = j
  · subst hkj
    have hmaskM : ¬ (Function.update o m (o (m + 1)) (k + 1)
        = Function.update o m (o (m + 1)) k) :=
      fun h => hne ((mask_check_congr o m k hmono hj hne).mp h)
    simp [Function.comp, hmaskM, hne]
  · have hfalse : (k == j) = false := by simpa using hkj
    simp [Function.comp, hfalse]

theorem mem_collectSeq_props (offsets : Nat → Nat) (idx : List Nat → Nat)
    (aaFrom aaSize : Nat) (threshold : Int) (diagonalScore : Nat → Int) (seqId : Nat)
    (kmers : List KmerOcc) :
    ∀ t ∈ collectSeq offsets idx aaFrom aaSize threshold diagonalScore seqId kmers,
      (aaFrom ≤ t.kmer ∧ t.kmer < aaFrom + aaSize)
      ∧ offsets (t.kmer + 1) ≠ offsets t.kmer ∧ t.seqId = seqId := by
  intro t ht
  rw [collectSeq_eq_filter] at ht
  obtain ⟨o_, ho_, rfl⟩ := List.mem_map.mp ht
  have hk := (List.mem_filter.mp ho_).2
  simp only [Bool.and_eq_true, decide_eq_true_eq, Bool.not_eq_eq_eq_not, Bool.not_true,
    decide_eq_false_iff_not] at hk
  exact ⟨hk.1.1, hk.1.2, rfl⟩

theorem mem_collectSim_props (offsets : Nat → Nat) (kmerGenerator : List Nat → List Nat)
    (aaFrom aaSize seqId : Nat) (kmers : List KmerOcc) :
    ∀ t ∈ collectSim offsets kmerGenerator aaFrom aaSize seqId kmers,
      (aaFrom ≤ t.kmer ∧ t.kmer < aaFrom + aaSize)
      ∧ offsets (t.kmer + 1) ≠ offsets t.kmer ∧ t.seqId = seqId := by
  intro t ht
  rw [collectSim_eq_flatMap] at ht
  obtain ⟨o_, ho_, hin⟩ := List.mem_flatMap.mp ht
  obtain ⟨k, hk, rfl⟩ := List.mem_map.mp hin
  have hc := (List.mem_filter.mp hk).2
  simp only [Bool.and_eq_true, decide_eq_true_eq, Bool.not_eq_eq_eq_not, Bool.not_true,
    decide_eq_false_iff_not] at hc
  exact ⟨hc.1, hc.2, rfl⟩

/-- C6. Mask honored and frame: if bucket `m` has zero length
(`omask (m + 1) = omask m`, the `size_t` difference being zero) before the
fill phase, then no call to `addSequence` or `addSimilarSequence` writes a
posting into bucket `m`, and `getDBSeqList` on `m` returns length 0.
Moreover, when the zero length arises from the spec's mask write
`cell[m] := cell[m+1]` applied to monotone prefix-sum offsets `o`, the
postings of every other bucket `j` that is unmasked in `o` are exactly those
that would be produced without the mask. -/
theorem mask_honored_spec (o omask : Nat → Nat) (m : Nat) (idx : List Nat → Nat)
    (kmerGenerator : List Nat → List Nat) (aaFrom aaSize : Nat) (threshold : Int)
    (diagonalScore : Nat → Int) (seqId : Nat) (kmers : List KmerOcc)
    (hzero : omask (m + 1) = omask m)
    (hwin : aaFrom + aaSize ≤ UINT_MAX) :
    (getDBSeqList omask m).2 = 0
    ∧ (∀ w ∈ (addSequence omask idx aaFrom aaSize threshold diagonalScore seqId
        kmers).trace, w.kmer ≠ m)
    ∧ (∀ w ∈ (addSimilarSequence omask kmerGenerator aaFrom aaSize threshold
        diagonalScore seqId kmers).trace, w.kmer ≠ m)
    ∧ (omask = Function.update o m (o (m + 1)) → (∀ i, o i ≤ o (i + 1)) →
        ∀ j, j ≠ m → o (j + 1) ≠ o j →
          (addSequence omask idx aaFrom aaSize threshold diagonalScore seqId
              kmers).trace.filter (fun w => w.kmer == j)
            = (addSequence o idx aaFrom aaSize threshold diagonalScore seqId
              kmers).trace.filter (fun w => w.kmer == j)
          ∧ (addSimilarSequence omask kmerGenerator aaFrom aaSize threshold diagonalScore
              seqId kmers).trace.filter (fun w => w.kmer == j)
            = (addSimilarSequence o kmerGenerator aaFrom aaSize threshold diagonalScore
              seqId kmers).trace.filter (fun w => w.kmer == j)) := by
  refine ⟨?_, ?_, ?_, ?_⟩
  · simp [getDBSeqList, hzero]
  · intro w hw
    intro hwm
    have hSeq : addSequence omask idx aaFrom aaSize threshold diagonalScore seqId kmers
        = fillLoop omask UINT_MAX (sortBuffer (collectSeq omask idx aaFrom aaSize
            threshold diagonalScore seqId kmers)) := rfl
    rw [hSeq] at hw
    have hk := fillLoop_trace_kmer_mem _ _ _ w hw
    have hk' : w.kmer ∈ (collectSeq omask idx aaFrom aaSize threshold diagonalScore seqId
        kmers).map IndexEntryLocalTmp.kmer :=
      (((sortBuffer_perm _).map IndexEntryLocalTmp.kmer).mem_iff).mp hk
    obtain ⟨t, ht, htk⟩ := List.mem_map.mp hk'
    have hprops := mem_collectSeq_props omask idx aaFrom aaSize threshold diagonalScore
      seqId kmers t ht
    rw [htk, hwm] at hprops
    exact hprops.2.1 hzero
  · intro w hw
    intro hwm
    have hSim : addSimilarSequence omask kmerGenerator aaFrom aaSize threshold
        diagonalScore seqId kmers
        = fillLoop omask UINT_MAX (sortBuffer (collectSim omask kmerGenerator aaFrom
            aaSize seqId kmers)) := rfl
    rw [hSim] at hw
    have hk := fillLoop_trace_kmer_mem _ _ _ w hw
    have hk' : w.kmer ∈ (collectSim omask kmerGenerator aaFrom aaSize seqId
        kmers).map IndexEntryLocalTmp.kmer :=
      (((sortBuffer_perm _).map IndexEntryLocalTmp.kmer).mem_iff).mp hk
    obtain ⟨t, ht, htk⟩ := List.mem_map.mp hk'
    have hprops := mem_collectSim_props omask kmerGenerator aaFrom aaSize seqId kmers t ht
    rw [htk, hwm] at hprops
    exact hprops.2.1 hzero
  · intro homask hmono j hj hnej
    subst homask
    constructor
    · have hfe := collectSeq_filter_frame o m idx aaFrom aaSize threshold diagonalScore
        seqId kmers hmono j hj hnej
      have hubM : ∀ t ∈ collectSeq (Function.update o m (o (m + 1))) idx aaFrom aaSize
          threshold diagonalScore seqId kmers, t.kmer < UINT_MAX := by
        intro t ht
        have := (mem_collectSeq_props _ idx aaFrom aaSize threshold diagonalScore seqId
          kmers t ht).1
        omega
      have hubO : ∀ t ∈ collectSeq o idx aaFrom aaSize threshold diagonalScore seqId
          kmers, t.kmer < UINT_MAX := by
        intro t ht
        have := (mem_collectSeq_props o idx aaFrom aaSize threshold diagonalScore seqId
          kmers t ht).1
        omega
      have hsidM : ∀ t ∈ collectSeq (Function.update o m (o (m + 1))) idx aaFrom aaSize
          threshold diagonalScore seqId kmers, t.seqId = seqId :=
        fun t ht => (mem_collectSeq_props _ idx aaFrom aaSize threshold diagonalScore
          seqId kmers t ht).2.2
      have hsidO : ∀ t ∈ collectSeq o idx aaFrom aaSize threshold diagonalScore seqId
          kmers, t.seqId = seqId :=
        fun t ht => (mem_collectSeq_props o idx aaFrom aaSize threshold diagonalScore
          seqId kmers t ht).2.2
      have charM := fillPhase_spec _ (Function.update o m (o (m + 1))) seqId hubM hsidM j
      have charO := fillPhase_spec _ o seqId hubO hsidO j
      have hmm : j ∈ (collectSeq (Function.update o m (o (m + 1))) idx aaFrom aaSize
            threshold diagonalScore seqId kmers).map IndexEntryLocalTmp.kmer
          ↔ j ∈ (collectSeq o idx aaFrom aaSize threshold diagonalScore seqId
            kmers).map IndexEntryLocalTmp.kmer := by
        rw [mem_map_kmer_iff, mem_map_kmer_iff, hfe]
      have hSeqM : addSequence (Function.update o m (o (m + 1))) idx aaFrom aaSize
          threshold diagonalScore seqId kmers
          = fillLoop (Function.update o m (o (m + 1))) UINT_MAX
              (sortBuffer (collectSeq (Function.update o m (o (m + 1))) idx aaFrom aaSize
                threshold diagonalScore seqId kmers)) := rfl
      have hSeqO : addSequence o idx aaFrom aaSize threshold diagonalScore seqId kmers
          = fillLoop o UINT_MAX (sortBuffer (collectSeq o idx aaFrom aaSize threshold
              diagonalScore seqId kmers)) := rfl
      rw [hSeqM, hSeqO]
      by_cases hjm : j ∈ (collectSeq (Function.update o m (o (m + 1))) idx aaFrom aaSize
          threshold diagonalScore seqId kmers).map IndexEntryLocalTmp.kmer
      · obtain ⟨p₁, hp₁mem, hp₁min, htr₁⟩ := charM.2.2.1 hjm
        obtain ⟨p₂, hp₂mem, hp₂min, htr₂⟩ := charO.2.2.1 (hmm.mp hjm)
        have hposeq : ((collectSeq (Function.update o m (o (m + 1))) idx aaFrom aaSize
              threshold diagonalScore seqId kmers).filter
              (fun t => t.kmer == j)).map IndexEntryLocalTmp.position_j
            = ((collectSeq o idx aaFrom aaSize threshold diagonalScore seqId
              kmers).filter (fun t => t.kmer == j)).map IndexEntryLocalTmp.position_j := by
          rw [hfe]
        have hp12 : p₁ = p₂ :=
          Nat.le_antisymm (hp₁min p₂ (by rw [hposeq]; exact hp₂mem))
            (hp₂min p₁ (by rw [← hposeq]; exact hp₁mem))
        have hslot : Function.update o m (o (m + 1)) j = o j :=
          Function.update_noteq hj _ _
        rw [htr₁, htr₂, hp12, hslot]
      · rw [charM.2.1 hjm, charO.2.1 (fun h => hjm (hmm.mpr h))]
    · have hfe := collectSim_filter_frame o m kmerGenerator aaFrom aaSize seqId kmers
        hmono j hj hnej
      have hubM : ∀ t ∈ collectSim (Function.update o m (o (m + 1))) kmerGenerator aaFrom
          aaSize seqId kmers, t.kmer < UINT_MAX := by
        intro t ht
        have := (mem_collectSim_props _ kmerGenerator aaFrom aaSize seqId kmers t ht).1
        omega
      have hubO : ∀ t ∈ collectSim o kmerGenerator aaFrom aaSize seqId kmers,
          t.kmer < UINT_MAX := by
        intro t ht
        have := (mem_collectSim_props o kmerGenerator aaFrom aaSize seqId kmers t ht).1
        omega
      have hsidM : ∀ t ∈ collectSim (Function.update o m (o (m + 1))) kmerGenerator
          aaFrom aaSize seqId kmers, t.seqId = seqId :=
        fun t ht => (mem_collectSim_props _ kmerGenerator aaFrom aaSize seqId
          kmers t ht).2.2
      have hsidO : ∀ t ∈ collectSim o kmerGenerator aaFrom aaSize seqId kmers,
          t.seqId = seqId :=
        fun t ht => (mem_collectSim_props o kmerGenerator aaFrom aaSize seqId
          kmers t ht).2.2
      have charM := fillPhase_spec _ (Function.update o m (o (m + 1))) seqId hubM hsidM j
      have charO := fillPhase_spec _ o seqId hubO hsidO j
      have hmm : j ∈ (collectSim (Function.update o m (o (m + 1))) kmerGenerator aaFrom
            aaSize seqId kmers).map IndexEntryLocalTmp.kmer
          ↔ j ∈ (collectSim o kmerGenerator aaFrom aaSize seqId
            kmers).map IndexEntryLocalTmp.kmer := by
        rw [mem_map_kmer_iff, mem_map_kmer_iff, hfe]
      have hSimM : addSimilarSequence (Function.update o m (o (m + 1))) kmerGenerator
          aaFrom aaSize threshold diagonalScore seqId kmers
          = fillLoop (Function.update o m (o (m + 1))) UINT_MAX
              (sortBuffer (collectSim (Function.update o m (o (m + 1))) kmerGenerator
                aaFrom aaSize seqId kmers)) := rfl
      have hSimO : addSimilarSequence o kmerGenerator aaFrom aaSize threshold
          diagonalScore seqId kmers
          = fillLoop o UINT_MAX (sortBuffer (collectSim o kmerGenerator aaFrom aaSize
              seqId kmers)) := rfl
      rw [hSimM, hSimO]
      by_cases hjm : j ∈ (collectSim (Function.update o m (o (m + 1))) kmerGenerator
          aaFrom aaSize seqId kmers).map IndexEntryLocalTmp.kmer
      · obtain ⟨p₁, hp₁mem, hp₁min, htr₁⟩ := charM.2.2.1 hjm
        obtain ⟨p₂, hp₂mem, hp₂min, htr₂⟩ := charO.2.2.1 (hmm.mp hjm)
        have hposeq : ((collectSim (Function.update o m (o (m + 1))) kmerGenerator aaFrom
              aaSize seqId kmers).filter
              (fun t => t.kmer == j)).map IndexEntryLocalTmp.position_j
            = ((collectSim o kmerGenerator aaFrom aaSize seqId kmers).filter
              (fun t => t.kmer == j)).map IndexEntryLocalTmp.position_j := by
          rw [hfe]
        have hp12 : p₁ = p₂ :=
          Nat.le_antisymm (hp₁min p₂ (by rw [hposeq]; exact hp₂mem))
            (hp₂min p₁ (by rw [← hposeq]; exact hp₁mem))
        have hslot : Function.update o m (o (m + 1)) j = o j :=
          Function.update_noteq hj _ _
        rw [htr₁, htr₂, hp12, hslot]
      · rw [charM.2.1 hjm, charO.2.1 (fun h => hjm (hmm.mpr h))]

/-- C8. k-mer size selection: `computeKmerSize R` returns 6 if the
alphabet-residue count `R` is strictly less than 3,350,000,000 and returns 7
otherwise; and `getUpperBoundAACountForKmerSize` rejects every k-mer size
outside `{6, 7}` with an error rather than returning a bound. -/
theorem computeKmerSize_spec :
    (∀ R : Nat, R < 3350000000 → computeKmerSize R = Except.ok 6)
    ∧ (∀ R : Nat, 3350000000 ≤ R → computeKmerSize R = Except.ok 7)
    ∧ (∀ k : Int, k ≠ 6 → k ≠ 7 →
        ∃ msg, getUpperBoundAACountForKmerSize k = Except.error msg) := by
  refine ⟨?_, ?_, ?_⟩
  · intro R hR
    simp [computeKmerSize, getUpperBoundAACountForKmerSize, hR]
  · intro R hR
    have hR' : ¬ R < 3350000000 := by omega
    simp [computeKmerSize, getUpperBoundAACountForKmerSize, hR']
  · intro k h6 h7
    refine ⟨"Invalid kmer size of " ++ toString k ++ "!", ?_⟩
    simp [getUpperBoundAACountForKmerSize, h6, h7]

/-- C8 witness: `computeKmerSize` at 100 and at the boundary, and the error
for k-mer size 5. -/
theorem computeKmerSize_spec_witness :
    computeKmerSize 100 = Except.ok 6
    ∧ computeKmerSize 3350000000 = Except.ok 7
    ∧ ∃ msg, getUpperBoundAACountForKmerSize 5 = Except.error msg :=
  ⟨computeKmerSize_spec.1 100 (by decide),
   computeKmerSize_spec.2.1 3350000000 (by decide),
   computeKmerSize_spec.2.2 5 (by decide) (by decide)⟩

/-- C9 (code bug): with `externalData == false` and a failed allocation
(`new(std::nothrow)` returning null), the constructor performs the `memset`
through the unallocated buffer *before* `Util::checkAllocation` surfaces the
failure: the error is returned, but the write-through-null flag is set, so the
error branch is not reached before the buffer is touched. -/
theorem indexTableCtor_writes_null_before_check :
    (indexTableCtor 16 none).2 = true
    ∧ (indexTableCtor 16 none).1
        = Except.error "Could not allocate entries memory in IndexTable::initMemory" :=
  ⟨rfl, rfl⟩

/-- C10. Noninterference of the unused filter parameters in the neighborhood
variants: for every sequence and every two values of the `threshold` and
`diagonalScore` arguments, `addSimilarKmerCount` performs the same bucket
increments and returns the same count, and `addSimilarSequence` writes the
same postings and cursor updates. -/
theorem similar_variants_ignore_filter_params (offsets : Nat → Nat)
    (kmerGenerator : List Nat → List Nat) (aaFrom aaSize seqId : Nat)
    (threshold₁ threshold₂ : Int) (diagonalScore₁ diagonalScore₂ : Nat → Int)
    (kmers : List KmerOcc) :
    addSimilarKmerCount offsets kmerGenerator threshold₁ diagonalScore₁ kmers
      = addSimilarKmerCount offsets kmerGenerator threshold₂ diagonalScore₂ kmers
    ∧ addSimilarSequence offsets kmerGenerator aaFrom aaSize threshold₁ diagonalScore₁
        seqId kmers
      = addSimilarSequence offsets kmerGenerator aaFrom aaSize threshold₂ diagonalScore₂
        seqId kmers :=
  ⟨rfl, rfl⟩

/-- C1 witness: a concrete sequence with a duplicated k-mer: bucket 1 receives
exactly one posting, at slot `offsets 1 = 1`, with the smaller position 3, and
its cursor advances by one. -/
theorem addSequence_postings_spec_witness :
    ∃ p : Nat,
      (∃ o ∈ ([⟨[1], 5⟩, ⟨[1], 3⟩, ⟨[2], 7⟩] : List KmerOcc),
          (fun s : List Nat => s.headD 0) o.sym = 1
          ∧ ¬ ((0 : Int) < 0 ∧ kmerScore (fun _ => 0) o.sym < 0)
          ∧ o.pos % 65536 = p)
      ∧ (∀ o ∈ ([⟨[1], 5⟩, ⟨[1], 3⟩, ⟨[2], 7⟩] : List KmerOcc),
          (fun s : List Nat => s.headD 0) o.sym = 1 →
          ¬ ((0 : Int) < 0 ∧ kmerScore (fun _ => 0) o.sym < 0) →
          p ≤ o.pos % 65536)
      ∧ (addSequence (fun n => n) (fun s => s.headD 0) 0 10 0 (fun _ => 0) 9
          [⟨[1], 5⟩, ⟨[1], 3⟩, ⟨[2], 7⟩]).trace.filter (fun w => w.kmer == 1)
          = [⟨1, 1, 9, p⟩]
      ∧ (addSequence (fun n => n) (fun s => s.headD 0) 0 10 0 (fun _ => 0) 9
          [⟨[1], 5⟩, ⟨[1], 3⟩, ⟨[2], 7⟩]).offsets 1 = 1 + 1 :=
  (addSequence_postings_spec (fun n => n) (fun s => s.headD 0) 0 10 0 (fun _ => 0) 9
    [⟨[1], 5⟩, ⟨[1], 3⟩, ⟨[2], 7⟩] (by decide) 1).1 (by decide)

/-- C2 witness: threshold 2 with per-symbol score equal to the symbol: the
k-mer `[1]` is dropped, the duplicated k-mer `[3]` is counted once and its
bucket incremented once. -/
theorem addKmerCount_spec_witness :
    (addKmerCount (fun n => n) (fun s => s.headD 0) 2 (fun c => (c : Int))
        [⟨[3], 0⟩, ⟨[1], 1⟩, ⟨[3], 2⟩]).offsets 3 = 3 + 1 :=
  ((addKmerCount_spec (fun n => n) (fun s => s.headD 0) 2 (fun c => (c : Int))
    [⟨[3], 0⟩, ⟨[1], 1⟩, ⟨[3], 2⟩] (by decide)).1 3).1 (by decide)

/-- C3 witness: count-fill parity on a concrete sequence with a duplicate
k-mer, the full window `[0, 10)` and no masked bucket. -/
theorem count_fill_parity_witness :
    (addKmerCount (fun n => n) (fun s => s.headD 0) 0 (fun _ => 0)
        [⟨[1], 5⟩, ⟨[1], 3⟩, ⟨[2], 7⟩]).countUniqKmer
      = (addSequence (fun n => n) (fun s => s.headD 0) 0 10 0 (fun _ => 0) 9
          [⟨[1], 5⟩, ⟨[1], 3⟩, ⟨[2], 7⟩]).trace.length :=
  count_fill_parity (fun n => n) (fun n => n) (fun s => s.headD 0) 0 (fun _ => 0) 9 10
    [⟨[1], 5⟩, ⟨[1], 3⟩, ⟨[2], 7⟩] (by decide) (by decide) (by decide)

/-- C4 witness: the prefix sum of `[2, 0, 3]` evaluated at cell 2. -/
theorem init_prefix_sum_spec_witness :
    (init [2, 0, 3]).getD 2 0 = ([2, 0, 3].take 2).sum
    ∧ (init [2, 0, 3]).getD 3 0 = [2, 0, 3].sum :=
  ⟨(init_prefix_sum_spec [2, 0, 3]).2.1 2 (by decide),
   (init_prefix_sum_spec [2, 0, 3]).2.2.1⟩

/-- C5 witness: rewinding cursors that ended at the stage-3 value of the next
cell restores the stage-3 offsets of `[2, 0, 3]`. -/
theorem revertPointer_spec_witness :
    revertPointer 3 (fun i => (init [2, 0, 3]).getD (i + 1) 0) 2
      = (init [2, 0, 3]).getD 2 0 :=
  (revertPointer_spec 3 (fun i => (init [2, 0, 3]).getD (i + 1) 0) [2, 0, 3]
    (by decide) (fun i _ => rfl)).2.2 2 (by decide)

/-- C6 witness: after masking bucket 4 of the identity offsets,
`getDBSeqList` on bucket 4 reports length 0. -/
theorem mask_honored_spec_witness :
    (getDBSeqList (Function.update (fun n => n) 4 ((fun n : Nat => n) (4 + 1))) 4).2
      = 0 :=
  (mask_honored_spec (fun n => n)
    (Function.update (fun n => n) 4 ((fun n : Nat => n) (4 + 1))) 4
    (fun s => s.headD 0) (fun s => [s.headD 0]) 0 10 0 (fun _ => 0) 9
    [⟨[1], 5⟩] (by simp) (by decide)).1

end MMseqs
